import Mathlib

/-!
Verification of the flashinfer single-sequence decode kernel
(`src/include/flashinfer/decode.cuh`).

The development shallowly embeds, per attention head, the numeric content of
the kernel: the online-softmax running state and its merge rules (the
`state_t` type of `state.cuh`, which is not part of `src/` and is therefore
modelled from the specification), the per-chunk fold, the intra-group and
cross-group merges, the lane-level tree reduction of `compute_qk`, the
scratch-buffer index arithmetic of both layouts, and the host-side launch
configuration / dispatch logic of `SingleDecodeWithKVCache`.

Machine floating point is idealised as real arithmetic (the specification
states all equalities "within floating-point tolerance"); machine integers
(`size_t`) are modelled as `Nat` with truncating division, matching C++
unsigned semantics away from overflow.
-/

noncomputable section

namespace Flashinfer

/-- A per-head feature vector: one real per feature lane (`vec_t` holds
`vec_size` of these per thread; jointly the `bdx` lanes hold `head_dim`). -/
def Vec (hd : ℕ) : Type := Fin hd → ℝ

/-- Modelled from the spec: the online-softmax running state of `state.cuh`
(not under `src/`): `o` the accumulated, not-yet-normalized weighted output
vector, `m` the running maximum of folded-in scores, `d` the running sum of
`exp(score - m)`. -/
structure state_t (hd : ℕ) where
  o : Vec hd
  m : ℝ
  d : ℝ

namespace state_t

/-- Modelled from the spec: the two-state merge rule of `state.cuh`
(not under `src/`): `m = max(m1, m2)`, `d = d1*exp(m1-m) + d2*exp(m2-m)`,
`o = o1*exp(m1-m) + o2*exp(m2-m)`.  This is the overload
`state_t::merge(m_other, d_other, o_other)` called by `sync_state`. -/
def merge_md {hd : ℕ} (s : state_t hd) (m2 d2 : ℝ) (o2 : Vec hd) : state_t hd :=
  { m := max s.m m2
    d := s.d * Real.exp (s.m - max s.m m2) + d2 * Real.exp (m2 - max s.m m2)
    o := fun i =>
      s.o i * Real.exp (s.m - max s.m m2) + o2 i * Real.exp (m2 - max s.m m2) }

/-- Modelled from the spec: the state-to-state overload
`state_t::merge(const state_t &other)` of `state.cuh` (not under `src/`),
used by the cross-group reduction loop. -/
def merge_state {hd : ℕ} (s other : state_t hd) : state_t hd :=
  s.merge_md other.m other.d other.o

/-- Modelled from the spec: the single-element fold
`state_t::merge(float x, const vec_t &v)` of `state.cuh` (not under `src/`):
`m' = max(m, x)`, rescale `o`, `d` by `exp(m - m')`, add `exp(x - m') * v`
to `o` and `exp(x - m')` to `d`. -/
def merge_elem {hd : ℕ} (s : state_t hd) (x : ℝ) (v : Vec hd) : state_t hd :=
  { m := max s.m x
    d := s.d * Real.exp (s.m - max s.m x) + Real.exp (x - max s.m x)
    o := fun i =>
      s.o i * Real.exp (s.m - max s.m x) + Real.exp (x - max s.m x) * v i }

/-- The state holding exactly one folded-in element: `d = 1`, `o = v`,
`m = x` (spec §4.4: "a single element is a state with d=1, o=value,
m=score"). -/
def single {hd : ℕ} (x : ℝ) (v : Vec hd) : state_t hd :=
  { o := v, m := x, d := 1 }

end state_t

/-- One key/value sequence element, abstracted per head: its pre-softmax
score and its value vector. -/
def Elem (hd : ℕ) : Type := ℝ × Vec hd

/-- `update_partial_state` (both layouts, `decode.cuh` lines 89-100 and
401-413): load the value tile and, under the validity predicate, fold
`(x, v)` into the running state; otherwise leave the state unchanged. -/
def update_partial_state {hd : ℕ} (x : ℝ) (v : Vec hd) (pred_guard : Bool)
    (s : state_t hd) : state_t hd :=
  if pred_guard then s.merge_elem x v else s

/-- Fold a list of (score, value) elements into a running state, in order
(the consumer side of the staged pipeline, one `merge_elem` per valid
position). -/
def foldElems {hd : ℕ} (s : state_t hd) (l : List (Elem hd)) : state_t hd :=
  l.foldl (fun t p => t.merge_elem p.1 p.2) s

/-- The running state obtained from a nonempty chunk of elements: start from
the first element's singleton state and fold the rest.  (The kernel starts
from the empty state `o = 0, m = -inf, d = 0`, whose first fold produces
exactly the singleton state; starting from the singleton avoids extended
reals.)  The `[]` case is junk, unreachable under the nonemptiness
hypotheses of every theorem that uses it. -/
def stateOf {hd : ℕ} : List (Elem hd) → state_t hd
  | [] => { o := fun _ => 0, m := 0, d := 0 }
  | p :: l => foldElems (state_t.single p.1 p.2) l

/-- Merge a nonempty list of running states left to right (the cross-group
reduction loop of the chunk-zero block, and the `sync_state` intra-group
loop).  The `[]` case is junk, unreachable under nonemptiness hypotheses. -/
def mergeStates {hd : ℕ} : List (state_t hd) → state_t hd
  | [] => { o := fun _ => 0, m := 0, d := 0 }
  | s :: rest => rest.foldl state_t.merge_state s

/-- Abstraction of a running state: the `m`-independent exponential-weighted
sums it represents.  `O i = o i * exp m`, `D = d * exp m`, together with the
maximum `M = m`.  The merge rule is, through this abstraction, pointwise
addition plus `max`. -/
structure AbsState (hd : ℕ) where
  O : Vec hd
  D : ℝ
  M : ℝ

/-- Componentwise sum of abstractions (with `max` on the score maximum). -/
def AbsState.add {hd : ℕ} (p q : AbsState hd) : AbsState hd :=
  { O := fun i => p.O i + q.O i, D := p.D + q.D, M := max p.M q.M }

/-- The abstraction map from running states to exp-weighted sums. -/
def lift {hd : ℕ} (s : state_t hd) : AbsState hd :=
  { O := fun i => s.o i * Real.exp s.m, D := s.d * Real.exp s.m, M := s.m }

/-- Closed-form abstraction of a nonempty element list: `O i` is the sum of
`exp(score) * value i`, `D` the sum of `exp(score)`, `M` the maximum score.
The `[]` case is junk, unreachable under nonemptiness hypotheses. -/
def absOf {hd : ℕ} : List (Elem hd) → AbsState hd
  | [] => { O := fun _ => 0, D := 0, M := 0 }
  | p :: l =>
    { O := fun i => ((p :: l).map (fun q => Real.exp q.1 * q.2 i)).sum
      D := ((p :: l).map (fun q => Real.exp q.1)).sum
      M := l.foldl (fun a q => max a q.1) p.1 }

/-- Maximum folded-in score of a nonempty element list (junk on `[]`). -/
def maxScore {hd : ℕ} : List (Elem hd) → ℝ
  | [] => 0
  | p :: l => l.foldl (fun a q => max a q.1) p.1

/-- The host-side softmax scale, `sm_scale = 1 / sqrt(head_dim)`
(`decode.cuh` line 725). -/
def sm_scale_of (head_dim : ℕ) : ℝ := 1 / Real.sqrt (head_dim : ℝ)

/-- Modelled from the spec: the rotary-embedding applicator `apply_rotary`
of `rope.cuh` (not under `src/`) is an external collaborator: "given a raw
vector, a precomputed per-lane frequency table, and a sequence position,
returns the rotated vector".  The development is parametric in it. -/
def RotFun (hd : ℕ) : Type := Vec hd → Vec hd → ℕ → Vec hd

/-- The per-lane rotary frequency table computed by both kernels
(`decode.cuh` lines 181-186 and 496-501):
`rotary_emb[i] = rope_inv_scale * rope_inv_theta ^ (2*(i mod (hd/2)) / hd)`,
with the thread-lane index `tx * vec_size + i` flattened to a global feature
index. -/
def rembOf (hd : ℕ) (rope_inv_scale rope_inv_theta : ℝ) : Vec hd :=
  fun i =>
    rope_inv_scale *
      rope_inv_theta ^ (((2 * ((i : ℕ) % (hd / 2)) : ℕ) : ℝ) / (hd : ℝ))

/-- The query vector actually used by the kernels (`decode.cuh` lines
180-192 and 495-507): rotated once at absolute position `seq_len - 1` when
rotary mode is enabled, the raw query otherwise. -/
def q_used {hd : ℕ} (rotary : Bool) (rot : RotFun hd) (remb q : Vec hd)
    (seq_len : ℕ) : Vec hd :=
  if rotary then rot q remb (seq_len - 1) else q

/-- The key vector used by `compute_qk` for cache position `pos`
(`decode.cuh` lines 53-60 and 362-371): rotated in place at the absolute
position `kv_idx` when rotary mode is enabled, the raw staged values
otherwise. -/
def k_used {hd : ℕ} (rotary : Bool) (rot : RotFun hd) (remb : Vec hd)
    (k : ℕ → Vec hd) (pos : ℕ) : Vec hd :=
  if rotary then rot (k pos) remb pos else k pos

/-- The scalar produced by `compute_qk` after the tree reduction: the full
dot product with the scale applied per term, `sum_i q[i] * k[i] * sm_scale`
(`decode.cuh` lines 61-65 and 372-376). -/
def dotScore {hd : ℕ} (u w : Vec hd) (sm_scale : ℝ) : ℝ :=
  ∑ i, u i * w i * sm_scale

/-- The score the kernel computes for absolute cache position `pos`. -/
def kernelScore {hd : ℕ} (rotary : Bool) (rot : RotFun hd) (remb q : Vec hd)
    (k : ℕ → Vec hd) (sm_scale : ℝ) (seq_len pos : ℕ) : ℝ :=
  dotScore (q_used rotary rot remb q seq_len) (k_used rotary rot remb k pos)
    sm_scale

/-- The (score, value) elements a group processes for the contiguous range
`[chunk_start, chunk_start + len)`: the pipeline enumerates each local
offset `j` exactly once (as `batch * bdy + ty`, batches in order) and feeds
`compute_qk` the absolute index `consumer_kv_idx = chunk_start + j`
(`decode.cuh` lines 226-293 and 541-610), with out-of-range lanes masked by
the validity predicate. -/
def chunkElems {hd : ℕ} (rotary : Bool) (rot : RotFun hd) (remb q : Vec hd)
    (k v : ℕ → Vec hd) (sm_scale : ℝ) (seq_len chunk_start len : ℕ) :
    List (Elem hd) :=
  (List.range len).map fun j =>
    (kernelScore rotary rot remb q k sm_scale seq_len (chunk_start + j),
      v (chunk_start + j))

/-- Number of kv chunks launched by the host: `gridDim.x =
ceil(seq_len / kv_chunk_size)` (`decode.cuh` lines 748 and 781). -/
def numChunks (seq_len cs : ℕ) : ℕ := (seq_len + cs - 1) / cs

/-- Effective length of chunk `c`:
`kv_chunk_size = min(kv_chunk_size, seq_len - chunk_start)`
(`decode.cuh` lines 195-197 and 510-512). -/
def chunkLen (seq_len cs c : ℕ) : ℕ := min cs (seq_len - c * cs)

/-- The converged per-chunk running state group `c` writes to the scratch
buffer (its `s_partial` after `sync_state`). -/
def chunkStateAt {hd : ℕ} (rotary : Bool) (rot : RotFun hd) (remb q : Vec hd)
    (k v : ℕ → Vec hd) (sm_scale : ℝ) (seq_len cs c : ℕ) : state_t hd :=
  stateOf (chunkElems rotary rot remb q k v sm_scale seq_len (c * cs)
    (chunkLen seq_len cs c))

/-- The merged global state the chunk-zero group computes by re-reading
every chunk's scratch entry and merging them in order (`decode.cuh` lines
306-321 and 624-639). -/
def crossMergedState {hd : ℕ} (rotary : Bool) (rot : RotFun hd)
    (remb q : Vec hd) (k v : ℕ → Vec hd) (sm_scale : ℝ)
    (seq_len cs : ℕ) : state_t hd :=
  mergeStates ((List.range (numChunks seq_len cs)).map
    (chunkStateAt rotary rot remb q k v sm_scale seq_len cs))

/-- Modelled from the spec: the final per-head output written to the output
tensor.  The spec (§4.5) states the chunk-zero group "normalizes the output
(`o / d`, never materialized except at this final step)"; the store itself
goes through `vec_t::cast_store` (not under `src/`). -/
def finalOutput {hd : ℕ} (rotary : Bool) (rot : RotFun hd) (remb q : Vec hd)
    (k v : ℕ → Vec hd) (sm_scale : ℝ) (seq_len cs : ℕ) (i : Fin hd) : ℝ :=
  (crossMergedState rotary rot remb q k v sm_scale seq_len cs).o i /
    (crossMergedState rotary rot remb q k v sm_scale seq_len cs).d

/-- The one-pass reference: the 5-stage fold over the whole sequence as a
single chunk starting at position 0. -/
def singlePassState {hd : ℕ} (rotary : Bool) (rot : RotFun hd)
    (remb q : Vec hd) (k v : ℕ → Vec hd) (sm_scale : ℝ)
    (seq_len : ℕ) : state_t hd :=
  stateOf (chunkElems rotary rot remb q k v sm_scale seq_len 0 seq_len)

/-- Lane-local pre-reduction partial sum inside `compute_qk`: thread `tx`
holds features `[tx * vec_size, (tx+1) * vec_size)` and accumulates
`q_vec[i] * k_vec[i] * sm_scale` over its slice (`decode.cuh` lines
61-65). -/
def laneSum (vec_size : ℕ) (q k : ℕ → ℝ) (sm_scale : ℝ) (t : ℕ) : ℝ :=
  ∑ i ∈ Finset.range vec_size,
    q (t * vec_size + i) * k (t * vec_size + i) * sm_scale

/-- One `x += g.shfl_down(x, offset)` step over a tile of `n` lanes
(`decode.cuh` lines 67-70).  For lanes with `t + offset >= n` the hardware
shuffle result is unspecified; it is modelled as the lane's own value, a
choice the reduction result on lane 0 never depends on. -/
def shfl_down_add (n : ℕ) (xs : ℕ → ℝ) (offset : ℕ) : ℕ → ℝ :=
  fun t => xs t + xs (if t + offset < n then t + offset else t)

/-- The reduction loop `for (offset = bdx/2; offset > 0; offset /= 2)`
over `n = 2^k` lanes: offsets `2^(k-1), ..., 2, 1`, largest first. -/
def qkReduceLoop (n : ℕ) : ℕ → (ℕ → ℝ) → (ℕ → ℝ)
  | 0, xs => xs
  | j + 1, xs => qkReduceLoop n j (shfl_down_add n xs (2 ^ j))

/-- The lane values after `compute_qk`'s reduction and final broadcast
`x = g.shfl(x, 0)` (`decode.cuh` line 71): every lane receives lane 0's
reduced value. -/
def compute_qk_lanes (k_pow vec_size : ℕ) (q k : ℕ → ℝ) (sm_scale : ℝ) :
    ℕ → ℝ :=
  fun _ => qkReduceLoop (2 ^ k_pow) k_pow (laneSum vec_size q k sm_scale) 0

end Flashinfer

end

namespace Flashinfer

/-- Outcome of the host wrapper `SingleDecodeWithKVCache`: a fatal
configuration abort, an error code returned by a `CUDA_CALL` with no kernel
executed, or a cooperative launch with the given grid and chunk size. -/
inductive Outcome where
  | fatalAbort : Outcome
  | returnedError : ℕ → Outcome
  | launched : ℕ → ℕ → ℕ → Outcome
  deriving DecidableEq

/-- `SWITCH_HEAD_DIM` supports exactly 64, 128, 256 (`decode.cuh` lines
648-669). -/
def validHeadDim (head_dim : ℕ) : Bool :=
  head_dim == 64 || head_dim == 128 || head_dim == 256

/-- `SWITCH_ROTARY_MODE` supports `kNone` (0) and `kApplyRotary` (1)
(`decode.cuh` lines 671-687). -/
def validRotaryMode (rotary_mode : ℕ) : Bool :=
  rotary_mode == 0 || rotary_mode == 1

/-- `qkv_layout` dispatch supports `kNHD` (0) and `kHND` (1); anything else
aborts (`decode.cuh` lines 729, 763, 796-799). -/
def validLayout (qkv_layout : ℕ) : Bool := qkv_layout == 0 || qkv_layout == 1

/-- `vec_size = max(16 / sizeof(DTypeIn), HEAD_DIM / 32)` (`decode.cuh`
lines 732 and 766). -/
def vec_size_of (sizeof_dtype head_dim : ℕ) : ℕ :=
  max (16 / sizeof_dtype) (head_dim / 32)

/-- `bdx = HEAD_DIM / vec_size` (`decode.cuh` lines 733 and 767). -/
def bdx_of (sizeof_dtype head_dim : ℕ) : ℕ :=
  head_dim / vec_size_of sizeof_dtype head_dim

/-- NHD: `bdy = 32 / bdx` (`decode.cuh` line 734). -/
def bdy_NHD (sizeof_dtype head_dim : ℕ) : ℕ := 32 / bdx_of sizeof_dtype head_dim

/-- HND: `bdy = 128 / bdx` (`decode.cuh` line 768). -/
def bdy_HND (sizeof_dtype head_dim : ℕ) : ℕ := 128 / bdx_of sizeof_dtype head_dim

/-- NHD: `max_num_kv_chunks = max_num_blks / (num_heads / bdy)`
(`decode.cuh` line 744). -/
def max_num_kv_chunks_NHD (max_num_blks num_heads bdy : ℕ) : ℕ :=
  max_num_blks / (num_heads / bdy)

/-- HND: `max_num_kv_chunks = max_num_blks / num_heads` (`decode.cuh` line
777). -/
def max_num_kv_chunks_HND (max_num_blks num_heads : ℕ) : ℕ :=
  max_num_blks / num_heads

/-- NHD chunk size (`decode.cuh` lines 745-747):
`max(ceil(seq_len / max_num_kv_chunks),
     min(64, max(8, seq_len / max(1, 64 * bdy / num_heads))))`. -/
def kv_chunk_size_NHD (max_num_blks num_heads bdy seq_len : ℕ) : ℕ :=
  max ((seq_len + max_num_kv_chunks_NHD max_num_blks num_heads bdy - 1) /
        max_num_kv_chunks_NHD max_num_blks num_heads bdy)
      (min 64 (max 8 (seq_len / max 1 (64 * bdy / num_heads))))

/-- HND chunk size (`decode.cuh` lines 778-780):
`max(ceil(seq_len / max_num_kv_chunks),
     min(128, max(32, seq_len / max(1, 128 / num_heads))))`. -/
def kv_chunk_size_HND (max_num_blks num_heads seq_len : ℕ) : ℕ :=
  max ((seq_len + max_num_kv_chunks_HND max_num_blks num_heads - 1) /
        max_num_kv_chunks_HND max_num_blks num_heads)
      (min 128 (max 32 (seq_len / max 1 (128 / num_heads))))

/-- The host wrapper's control flow (`decode.cuh` lines 718-801): layout
dispatch, `SWITCH_HEAD_DIM`, `SWITCH_ROTARY_MODE` (each aborting on
unsupported values), then the two device queries behind `CUDA_CALL` (an
error is returned to the caller with no kernel executed), then the chunk
size computation and the cooperative launch.  `smQ` and `occQ` are the
results of `cudaDeviceGetAttribute` and
`cudaOccupancyMaxActiveBlocksPerMultiprocessor`. -/
def SingleDecodeWithKVCache (sizeof_dtype qkv_layout rotary_mode head_dim
    num_heads seq_len : ℕ) (smQ occQ : Except ℕ ℕ) : Outcome :=
  if qkv_layout == 0 then
    if validHeadDim head_dim then
      if validRotaryMode rotary_mode then
        match smQ with
        | .error e => .returnedError e
        | .ok num_sm =>
          match occQ with
          | .error e => .returnedError e
          | .ok num_blocks_per_sm =>
            let bdy := bdy_NHD sizeof_dtype head_dim
            let cs := kv_chunk_size_NHD (num_blocks_per_sm * num_sm)
              num_heads bdy seq_len
            .launched ((seq_len + cs - 1) / cs) (num_heads / bdy) cs
      else .fatalAbort
    else .fatalAbort
  else if qkv_layout == 1 then
    if validHeadDim head_dim then
      if validRotaryMode rotary_mode then
        match smQ with
        | .error e => .returnedError e
        | .ok num_sm =>
          match occQ with
          | .error e => .returnedError e
          | .ok num_blocks_per_sm =>
            let cs := kv_chunk_size_HND (num_blocks_per_sm * num_sm)
              num_heads seq_len
            .launched ((seq_len + cs - 1) / cs) num_heads cs
      else .fatalAbort
    else .fatalAbort
  else .fatalAbort

/-- Whether a group takes the final read-merge-write branch of the
cross-group reduction: `if (kv_chunk_idx == 0)` (`decode.cuh` lines 306 and
624). -/
def writesFinalOutput (kv_chunk_idx : ℕ) : Bool := kv_chunk_idx == 0

/-- Modelled from the spec: `cudaLaunchCooperativeKernel` (external CUDA
runtime, invoked at `decode.cuh` lines 761 and 794) reports a launch
precondition violation exactly when the grid would need more concurrently
resident groups than the device can host at once. -/
def cooperativeLaunchFails (total_blocks max_num_blks : ℕ) : Prop :=
  max_num_blks < total_blocks

namespace HND

/-- HND scratch index of feature `i` of the partial output of
(head `h`, chunk `c`): `(h * num_kv_chunks + c) * head_dim + i`
(`decode.cuh` line 299). -/
def tmpOIndex (C hd h c i : ℕ) : ℕ := (h * C + c) * hd + i

/-- HND scratch index of the `(m, d)` pair (`j = 0` for `m`, `1` for `d`)
of (head `h`, chunk `c`): past the `num_heads * num_kv_chunks * head_dim`
output block (`decode.cuh` lines 300-302). -/
def tmpMDIndex (H C hd h c j : ℕ) : ℕ := H * C * hd + (h * C + c) * 2 + j

end HND

namespace NHD

/-- NHD scratch index of feature `i` of the partial output of
(head `h`, chunk `c`): `(c * num_heads + h) * head_dim + i`
(`decode.cuh` line 617). -/
def tmpOIndex (H hd h c i : ℕ) : ℕ := (c * H + h) * hd + i

/-- NHD scratch index of the `(m, d)` pair of (head `h`, chunk `c`)
(`decode.cuh` lines 618-620). -/
def tmpMDIndex (H C hd h c j : ℕ) : ℕ := C * H * hd + (c * H + h) * 2 + j

end NHD

/-- The scratch-buffer size the caller must provide:
`heads * chunks * head_dim + 2 * heads * chunks` floats (spec §6). -/
def tmpSize (H C hd : ℕ) : ℕ := H * C * hd + 2 * H * C

/-- An index is written (before the device-wide barrier) iff some group
(h, c) stores it: the partial output vector or the `(m, d)` pair, HND
layout. -/
def writtenHND (H C hd n : ℕ) : Prop :=
  ∃ h < H, ∃ c < C,
    (∃ i < hd, n = HND.tmpOIndex C hd h c i) ∨
      (∃ j < 2, n = HND.tmpMDIndex H C hd h c j)

/-- An index is read during the cross-group reduction iff the chunk-zero
group of some head `h` reads it in its batched loop: batch `b`, lane group
`ty < bdy`, chunk `c = b * bdy + ty` guarded by `c < C` (`decode.cuh` lines
308-317), HND layout. -/
def readHND (H C hd bdy n : ℕ) : Prop :=
  ∃ h < H, ∃ b < (C + bdy - 1) / bdy, ∃ ty < bdy,
    b * bdy + ty < C ∧
      ((∃ i < hd, n = HND.tmpOIndex C hd h (b * bdy + ty) i) ∨
        (∃ j < 2, n = HND.tmpMDIndex H C hd h (b * bdy + ty) j))

/-- Written-index predicate, NHD layout. -/
def writtenNHD (H C hd n : ℕ) : Prop :=
  ∃ h < H, ∃ c < C,
    (∃ i < hd, n = NHD.tmpOIndex H hd h c i) ∨
      (∃ j < 2, n = NHD.tmpMDIndex H C hd h c j)

/-- Read-index predicate of the cross-group reduction, NHD layout: the
chunk-zero block covering head `h` reads chunk `c = b * bdz + tz` per batch
`b`, guarded by `c < C` (`decode.cuh` lines 626-635). -/
def readNHD (H C hd bdz n : ℕ) : Prop :=
  ∃ h < H, ∃ b < (C + bdz - 1) / bdz, ∃ tz < bdz,
    b * bdz + tz < C ∧
      ((∃ i < hd, n = NHD.tmpOIndex H hd h (b * bdz + tz) i) ∨
        (∃ j < 2, n = NHD.tmpMDIndex H C hd h (b * bdz + tz) j))

end Flashinfer

namespace Flashinfer

theorem exp_sub_mul (x y : ℝ) : Real.exp (x - y) * Real.exp y = Real.exp x := by
  rw [← Real.exp_add]
  ring_nf

theorem lift_inj {hd : ℕ} {a b : state_t hd} (h : lift a = lift b) : a = b := by
  have hM : a.m = b.m := congrArg AbsState.M h
  have hD : a.d * Real.exp a.m = b.d * Real.exp b.m := congrArg AbsState.D h
  have hO : ∀ i, a.o i * Real.exp a.m = b.o i * Real.exp b.m := fun i =>
    congrFun (congrArg AbsState.O h) i
  cases a; cases b
  simp only at hM hD hO
  subst hM
  simp only [state_t.mk.injEq]
  refine ⟨funext fun i => ?_, trivial, ?_⟩
  · exact mul_right_cancel₀ (Real.exp_ne_zero _) (hO i)
  · exact mul_right_cancel₀ (Real.exp_ne_zero _) hD

theorem AbsState.add_comm {hd : ℕ} (p q : AbsState hd) :
    p.add q = q.add p := by
  simp only [AbsState.add, AbsState.mk.injEq]
  exact ⟨funext fun i => by ring, by ring, max_comm _ _⟩

theorem AbsState.add_assoc {hd : ℕ} (p q r : AbsState hd) :
    (p.add q).add r = p.add (q.add r) := by
  simp only [AbsState.add, AbsState.mk.injEq]
  exact ⟨funext fun i => by ring, by ring, max_assoc _ _ _⟩

theorem lift_merge_md {hd : ℕ} (s : state_t hd) (m2 d2 : ℝ) (o2 : Vec hd) :
    lift (s.merge_md m2 d2 o2) = (lift s).add (lift { o := o2, m := m2, d := d2 }) := by
  simp only [lift, state_t.merge_md, AbsState.add, AbsState.mk.injEq]
  refine ⟨funext fun i => ?_, ?_, trivial⟩
  · rw [add_mul, mul_assoc, mul_assoc, exp_sub_mul, exp_sub_mul]
  · rw [add_mul, mul_assoc, mul_assoc, exp_sub_mul, exp_sub_mul]

theorem lift_merge_state {hd : ℕ} (a b : state_t hd) :
    lift (a.merge_state b) = (lift a).add (lift b) := by
  have h := lift_merge_md a b.m b.d b.o
  simpa [state_t.merge_state] using h

theorem merge_elem_eq_merge_single {hd : ℕ} (s : state_t hd) (x : ℝ) (v : Vec hd) :
    s.merge_elem x v = s.merge_state (state_t.single x v) := by
  simp only [state_t.merge_elem, state_t.merge_state, state_t.merge_md,
    state_t.single, state_t.mk.injEq]
  refine ⟨funext fun i => by ring, trivial, by ring⟩

theorem lift_merge_elem {hd : ℕ} (s : state_t hd) (x : ℝ) (v : Vec hd) :
    lift (s.merge_elem x v) = (lift s).add (lift (state_t.single x v)) := by
  rw [merge_elem_eq_merge_single, lift_merge_state]

theorem foldl_max_shift {hd : ℕ} (l : List (Elem hd)) (a b : ℝ) :
    l.foldl (fun c q => max c q.1) (max a b) =
      max a (l.foldl (fun c q => max c q.1) b) := by
  induction l generalizing b with
  | nil => rfl
  | cons p t ih =>
    simp only [List.foldl_cons]
    rw [max_assoc]
    exact ih (max b p.1)

theorem absOf_singleton {hd : ℕ} (p : Elem hd) :
    absOf [p] = lift (state_t.single p.1 p.2) := by
  simp only [absOf, lift, state_t.single, List.map_cons, List.map_nil,
    List.sum_cons, List.sum_nil, List.foldl_nil, add_zero, AbsState.mk.injEq]
  refine ⟨funext fun i => by ring, by ring, trivial⟩

theorem absOf_cons {hd : ℕ} (p : Elem hd) (l : List (Elem hd)) (h : l ≠ []) :
    absOf (p :: l) = (lift (state_t.single p.1 p.2)).add (absOf l) := by
  match l, h with
  | q :: t, _ =>
    simp only [absOf, lift, state_t.single, AbsState.add, List.map_cons,
      List.sum_cons, List.foldl_cons, AbsState.mk.injEq]
    refine ⟨funext fun i => by ring, by ring, ?_⟩
    exact foldl_max_shift t p.1 q.1

theorem lift_foldElems {hd : ℕ} (l : List (Elem hd)) (s : state_t hd)
    (h : l ≠ []) : lift (foldElems s l) = (lift s).add (absOf l) := by
  induction l generalizing s with
  | nil => exact absurd rfl h
  | cons p t ih =>
    cases t with
    | nil =>
      simp only [foldElems, List.foldl_cons, List.foldl_nil]
      rw [lift_merge_elem, absOf_singleton]
    | cons q t2 =>
      have step : foldElems s (p :: q :: t2) =
          foldElems (s.merge_elem p.1 p.2) (q :: t2) := rfl
      rw [step, ih (s.merge_elem p.1 p.2) (by simp), lift_merge_elem,
        AbsState.add_assoc, ← absOf_cons p (q :: t2) (by simp)]

theorem lift_stateOf {hd : ℕ} (l : List (Elem hd)) (h : l ≠ []) :
    lift (stateOf l) = absOf l := by
  match l, h with
  | p :: t, _ =>
    cases t with
    | nil =>
      show lift (foldElems (state_t.single p.1 p.2) []) = _
      rw [show foldElems (state_t.single p.1 p.2) [] =
        state_t.single p.1 p.2 from rfl]
      exact (absOf_singleton p).symm
    | cons q t2 =>
      show lift (foldElems (state_t.single p.1 p.2) (q :: t2)) = _
      rw [lift_foldElems _ _ (by simp), ← absOf_cons p (q :: t2) (by simp)]

theorem absOf_append {hd : ℕ} (l1 l2 : List (Elem hd)) (h1 : l1 ≠ [])
    (h2 : l2 ≠ []) : absOf (l1 ++ l2) = (absOf l1).add (absOf l2) := by
  induction l1 with
  | nil => exact absurd rfl h1
  | cons p t ih =>
    cases t with
    | nil =>
      rw [List.singleton_append, absOf_cons p l2 h2, absOf_singleton]
    | cons q t2 =>
      rw [List.cons_append, absOf_cons p (q :: t2 ++ l2) (by simp),
        ih (by simp), ← AbsState.add_assoc, ← absOf_cons p (q :: t2) (by simp)]

theorem append_ne_nil_left {α : Type _} {l1 l2 : List α} (h1 : l1 ≠ []) :
    l1 ++ l2 ≠ [] := by
  cases l1 with
  | nil => exact absurd rfl h1
  | cons a t => simp

theorem stateOf_append {hd : ℕ} (l1 l2 : List (Elem hd)) (h1 : l1 ≠ [])
    (h2 : l2 ≠ []) :
    (stateOf l1).merge_state (stateOf l2) = stateOf (l1 ++ l2) := by
  apply lift_inj
  rw [lift_merge_state, lift_stateOf _ h1, lift_stateOf _ h2,
    lift_stateOf _ (append_ne_nil_left h1), absOf_append _ _ h1 h2]

theorem foldl_merge_stateOf {hd : ℕ} (cs : List (List (Elem hd)))
    (acc : List (Elem hd)) (hacc : acc ≠ []) (hcs : ∀ c ∈ cs, c ≠ []) :
    (cs.map stateOf).foldl state_t.merge_state (stateOf acc) =
      stateOf (acc ++ cs.flatten) := by
  induction cs generalizing acc with
  | nil => simp
  | cons c rest ih =>
    simp only [List.map_cons, List.foldl_cons, List.flatten_cons]
    have hc : c ≠ [] := hcs c (by simp)
    rw [stateOf_append acc c hacc hc,
      ih (acc ++ c) (append_ne_nil_left hacc) (fun x hx => hcs x (by simp [hx])),
      List.append_assoc]

theorem mergeStates_flatten {hd : ℕ} (chunks : List (List (Elem hd)))
    (hne : chunks ≠ []) (hall : ∀ c ∈ chunks, c ≠ []) :
    mergeStates (chunks.map stateOf) = stateOf chunks.flatten := by
  match chunks, hne with
  | c :: rest, _ =>
    show (rest.map stateOf).foldl state_t.merge_state (stateOf c) = _
    rw [List.flatten_cons]
    exact foldl_merge_stateOf rest c (hall c (by simp))
      (fun x hx => hall x (by simp [hx]))

theorem stateOf_normalized {hd : ℕ} (l : List (Elem hd)) (h : l ≠ [])
    (i : Fin hd) :
    (stateOf l).o i / (stateOf l).d = (absOf l).O i / (absOf l).D := by
  have hl := lift_stateOf l h
  have hO : (stateOf l).o i * Real.exp (stateOf l).m = (absOf l).O i :=
    congrFun (congrArg AbsState.O hl) i
  have hD : (stateOf l).d * Real.exp (stateOf l).m = (absOf l).D :=
    congrArg AbsState.D hl
  rw [← hO, ← hD, mul_div_mul_right _ _ (Real.exp_ne_zero _)]

theorem maxScore_eq_absM {hd : ℕ} (l : List (Elem hd)) (h : l ≠ []) :
    maxScore l = (absOf l).M := by
  match l, h with
  | p :: t, _ => rfl

theorem stateOf_components {hd : ℕ} (l : List (Elem hd)) (h : l ≠ []) :
    (stateOf l).m = maxScore l ∧
    (stateOf l).d = (l.map (fun q => Real.exp (q.1 - maxScore l))).sum ∧
    ∀ i, (stateOf l).o i =
      (l.map (fun q => Real.exp (q.1 - maxScore l) * q.2 i)).sum := by
  have hl := lift_stateOf l h
  have hM : (stateOf l).m = (absOf l).M := congrArg AbsState.M hl
  have hD : (stateOf l).d * Real.exp (stateOf l).m = (absOf l).D :=
    congrArg AbsState.D hl
  have hO : ∀ i, (stateOf l).o i * Real.exp (stateOf l).m = (absOf l).O i :=
    fun i => congrFun (congrArg AbsState.O hl) i
  have hMS : maxScore l = (absOf l).M := maxScore_eq_absM l h
  have hMm : (stateOf l).m = maxScore l := by rw [hM, hMS]
  refine ⟨hMm, ?_, ?_⟩
  · have hd2 : (stateOf l).d =
        (absOf l).D * (Real.exp (maxScore l))⁻¹ := by
      rw [← hD, hMm, mul_assoc, mul_inv_cancel₀ (Real.exp_ne_zero _), mul_one]
    rw [hd2]
    match l, h with
    | p :: t, _ =>
      show ((p :: t).map (fun q => Real.exp q.1)).sum * _ =
        ((p :: t).map (fun q => Real.exp (q.1 - maxScore (p :: t)))).sum
      have hfun : (fun q : Elem hd => Real.exp (q.1 - maxScore (p :: t))) =
          fun q => Real.exp q.1 * (Real.exp (maxScore (p :: t)))⁻¹ := by
        funext q
        rw [Real.exp_sub, div_eq_mul_inv]
      rw [hfun, List.sum_map_mul_right]
  · intro i
    have ho2 : (stateOf l).o i =
        (absOf l).O i * (Real.exp (maxScore l))⁻¹ := by
      rw [← hO i, hMm, mul_assoc, mul_inv_cancel₀ (Real.exp_ne_zero _), mul_one]
    rw [ho2]
    match l, h with
    | p :: t, _ =>
      show ((p :: t).map (fun q => Real.exp q.1 * q.2 i)).sum * _ =
        ((p :: t).map (fun q => Real.exp (q.1 - maxScore (p :: t)) * q.2 i)).sum
      have hfun : (fun q : Elem hd =>
          Real.exp (q.1 - maxScore (p :: t)) * q.2 i) =
          fun q => Real.exp q.1 * q.2 i * (Real.exp (maxScore (p :: t)))⁻¹ := by
        funext q
        rw [Real.exp_sub, div_eq_mul_inv]
        ring
      rw [hfun, List.sum_map_mul_right]

theorem flatten_ne_nil {α : Type _} {ls : List (List α)} (h1 : ls ≠ [])
    (h2 : ∀ l ∈ ls, l ≠ []) : ls.flatten ≠ [] := by
  match ls, h1 with
  | l :: rest, _ =>
    rw [List.flatten_cons]
    exact append_ne_nil_left (h2 l (by simp))

/-- C1: For every key/value sequence, every partition of its positions into
contiguous chunks (equal-sized or ragged), and every further contiguous
split of each chunk into the pieces folded by independent lane groups, the
chunked two-level computation — per-piece fold, intra-group merge of each
chunk's pieces, cross-group merge of the chunk states — produces exactly
(real arithmetic standing in for "within floating-point tolerance") the
state of a single sequential fold of the 5-stage pipeline over the whole
sequence, and hence the same normalized per-head output `o / d`. -/
theorem chunked_two_level_eq_single_pass {hd : ℕ}
    (seq : List (Elem hd)) (partss : List (List (List (Elem hd))))
    (hflat : (partss.map List.flatten).flatten = seq)
    (hchunks : partss ≠ [])
    (hparts : ∀ parts ∈ partss, parts ≠ [])
    (hpiece : ∀ parts ∈ partss, ∀ part ∈ parts, part ≠ []) :
    mergeStates (partss.map (fun parts => mergeStates (parts.map stateOf))) =
      stateOf seq ∧
    ∀ i,
      (mergeStates (partss.map
        (fun parts => mergeStates (parts.map stateOf)))).o i /
      (mergeStates (partss.map
        (fun parts => mergeStates (parts.map stateOf)))).d =
      (stateOf seq).o i / (stateOf seq).d := by
  have hmap : partss.map (fun parts => mergeStates (parts.map stateOf)) =
      (partss.map List.flatten).map stateOf := by
    rw [List.map_map]
    exact List.map_congr_left fun parts hp =>
      mergeStates_flatten parts (hparts parts hp) (hpiece parts hp)
  have key : mergeStates (partss.map
      (fun parts => mergeStates (parts.map stateOf))) = stateOf seq := by
    rw [hmap, mergeStates_flatten (partss.map List.flatten)
      (by simpa using hchunks)
      (fun fl hfl => by
        obtain ⟨parts, hp, rfl⟩ := List.mem_map.mp hfl
        exact flatten_ne_nil (hparts parts hp) (hpiece parts hp)),
      hflat]
  exact ⟨key, fun i => by rw [key]⟩

theorem chunked_two_level_eq_single_pass_witness :
    (([[[((0 : ℝ), (fun _ => 1 : Vec 1))]],
       [[((1 : ℝ), (fun _ => 2 : Vec 1))]]].map List.flatten).flatten =
      [((0 : ℝ), (fun _ => 1 : Vec 1)), ((1 : ℝ), (fun _ => 2 : Vec 1))]) ∧
    mergeStates ([[[((0 : ℝ), (fun _ => 1 : Vec 1))]],
        [[((1 : ℝ), (fun _ => 2 : Vec 1))]]].map
      (fun parts => mergeStates (parts.map stateOf))) =
      stateOf [((0 : ℝ), (fun _ => 1 : Vec 1)),
        ((1 : ℝ), (fun _ => 2 : Vec 1))] :=
  ⟨rfl,
    (chunked_two_level_eq_single_pass
      [((0 : ℝ), (fun _ => 1 : Vec 1)), ((1 : ℝ), (fun _ => 2 : Vec 1))]
      [[[((0 : ℝ), (fun _ => 1 : Vec 1))]],
       [[((1 : ℝ), (fun _ => 2 : Vec 1))]]]
      rfl (by simp) (by simp) (by simp)).1⟩

/-- C2: the two-state merge computes `m = max(m1, m2)`,
`d = d1*exp(m1-m) + d2*exp(m2-m)`, `o = o1*exp(m1-m) + o2*exp(m2-m)`, and
is commutative and associative on arbitrary states. -/
theorem merge_state_formula_comm_assoc {hd : ℕ} :
    (∀ (s : state_t hd) (m2 d2 : ℝ) (o2 : Vec hd),
      (s.merge_md m2 d2 o2).m = max s.m m2 ∧
      (s.merge_md m2 d2 o2).d =
        s.d * Real.exp (s.m - max s.m m2) +
          d2 * Real.exp (m2 - max s.m m2) ∧
      ∀ i, (s.merge_md m2 d2 o2).o i =
        s.o i * Real.exp (s.m - max s.m m2) +
          o2 i * Real.exp (m2 - max s.m m2)) ∧
    (∀ a b : state_t hd, a.merge_state b = b.merge_state a) ∧
    (∀ a b c : state_t hd,
      (a.merge_state b).merge_state c = a.merge_state (b.merge_state c)) := by
  refine ⟨fun s m2 d2 o2 => ⟨rfl, rfl, fun _ => rfl⟩, ?_, ?_⟩
  · intro a b
    apply lift_inj
    rw [lift_merge_state, lift_merge_state, AbsState.add_comm]
  · intro a b c
    apply lift_inj
    rw [lift_merge_state, lift_merge_state, lift_merge_state,
      lift_merge_state, AbsState.add_assoc]

/-- C3: under a true validity predicate the accumulation stage folds
`(score, value)` by the online-softmax rule `m' = max(m, x)`,
`d' = d*exp(m-m') + exp(x-m')`, `o' = o*exp(m-m') + exp(x-m')*v`; under a
false predicate the running state is left completely unchanged. -/
theorem update_partial_state_spec {hd : ℕ} (s : state_t hd) (x : ℝ)
    (v : Vec hd) :
    ((update_partial_state x v true s).m = max s.m x ∧
     (update_partial_state x v true s).d =
       s.d * Real.exp (s.m - max s.m x) + Real.exp (x - max s.m x) ∧
     ∀ i, (update_partial_state x v true s).o i =
       s.o i * Real.exp (s.m - max s.m x) + Real.exp (x - max s.m x) * v i) ∧
    update_partial_state x v false s = s :=
  ⟨⟨rfl, rfl, fun _ => rfl⟩, rfl⟩

theorem chunkElems_def {hd : ℕ} (rotary : Bool) (rot : RotFun hd)
    (remb q : Vec hd) (k v : ℕ → Vec hd) (sm_scale : ℝ)
    (seq_len chunk_start len : ℕ) :
    chunkElems rotary rot remb q k v sm_scale seq_len chunk_start len =
      (List.range len).map (fun j =>
        (kernelScore rotary rot remb q k sm_scale seq_len (chunk_start + j),
          v (chunk_start + j))) := rfl

theorem chunkLen_succ (L cs c : ℕ) :
    chunkLen L cs (c + 1) = chunkLen (L - cs) cs c := by
  unfold chunkLen
  congr 1
  rw [Nat.succ_mul, Nat.sub_sub, Nat.add_comm]

theorem chunks_cover_range {α : Type _} (cs : ℕ) (hcs : 0 < cs) :
    ∀ (n : ℕ) (f : ℕ → α) (L : ℕ), numChunks L cs = n →
      ((List.range n).map (fun c =>
        (List.range (chunkLen L cs c)).map (fun j => f (c * cs + j)))).flatten
        = (List.range L).map f := by
  intro n
  induction n with
  | zero =>
    intro f L hL
    have hL0 : L = 0 := by
      unfold numChunks at hL
      rcases Nat.eq_zero_or_pos L with h0 | h1
      · exact h0
      · exfalso
        have hge : 1 ≤ (L + cs - 1) / cs :=
          (Nat.one_le_div_iff hcs).mpr (by omega)
        omega
    subst hL0
    simp
  | succ n ih =>
    intro f L hL
    have hLpos : 0 < L := by
      rcases Nat.eq_zero_or_pos L with h0 | h1
      · exfalso
        subst h0
        unfold numChunks at hL
        rw [Nat.zero_add, Nat.div_eq_of_lt (by omega)] at hL
        omega
      · exact h1
    by_cases hLe : L ≤ cs
    · have hn : n = 0 := by
        unfold numChunks at hL
        have h1 : (L + cs - 1) / cs = 1 :=
          Nat.div_eq_of_lt_le (by omega) (by omega)
        omega
      subst hn
      show ([(List.range (chunkLen L cs 0)).map (fun j => f (0 * cs + j))] ++
        []).flatten = _
      simp only [List.flatten_cons, List.flatten_nil, List.append_nil,
        List.nil_append]
      rw [show chunkLen L cs 0 = L by unfold chunkLen; omega]
      exact List.map_congr_left fun j _ => by rw [Nat.zero_mul, Nat.zero_add]
    · push_neg at hLe
      have hnext : numChunks (L - cs) cs = n := by
        unfold numChunks at hL ⊢
        have hsplit : L + cs - 1 = (L - cs + cs - 1) + cs := by omega
        rw [hsplit, Nat.add_div_right _ hcs] at hL
        omega
      rw [List.range_succ_eq_map, List.map_cons, List.flatten_cons,
        List.map_map]
      have hg0 : (List.range (chunkLen L cs 0)).map (fun j => f (0 * cs + j)) =
          (List.range cs).map f := by
        rw [show chunkLen L cs 0 = cs by unfold chunkLen; omega]
        exact List.map_congr_left fun j _ => by rw [Nat.zero_mul, Nat.zero_add]
      have hmap : (List.range n).map ((fun c =>
          (List.range (chunkLen L cs c)).map (fun j => f (c * cs + j))) ∘
            Nat.succ) =
          (List.range n).map (fun c =>
            (List.range (chunkLen (L - cs) cs c)).map
              (fun j => f (cs + (c * cs + j)))) := by
        apply List.map_congr_left
        intro c _
        simp only [Function.comp]
        rw [chunkLen_succ]
        apply List.map_congr_left
        intro j _
        congr 1
        rw [Nat.succ_mul]
        ring
      rw [hg0, hmap, ih (fun p => f (cs + p)) (L - cs) hnext]
      conv_rhs => rw [show L = cs + (L - cs) by omega]
      rw [List.range_add, List.map_append, List.map_map]
      rfl

theorem numChunks_pos {L cs : ℕ} (hcs : 0 < cs) (hL : 0 < L) :
    0 < numChunks L cs := by
  unfold numChunks
  exact (Nat.one_le_div_iff hcs).mpr (by omega)

theorem chunk_start_lt {L cs c : ℕ} (hcs : 0 < cs)
    (hc : c < numChunks L cs) : c * cs < L := by
  unfold numChunks at hc
  have hle : (c + 1) * cs ≤ L + cs - 1 :=
    (Nat.le_div_iff_mul_le hcs).mp hc
  rw [Nat.succ_mul] at hle
  omega

theorem chunkLen_pos {L cs c : ℕ} (hcs : 0 < cs) (_hL : 0 < L)
    (hc : c < numChunks L cs) : 0 < chunkLen L cs c := by
  have hstart := chunk_start_lt hcs hc
  unfold chunkLen
  omega

theorem chunkElems_ne_nil {hd : ℕ} (rotary : Bool) (rot : RotFun hd)
    (remb q : Vec hd) (k v : ℕ → Vec hd) (sm_scale : ℝ)
    (seq_len chunk_start len : ℕ) (hlen : 0 < len) :
    chunkElems rotary rot remb q k v sm_scale seq_len chunk_start len ≠ [] := by
  unfold chunkElems
  simp only [ne_eq, List.map_eq_nil_iff, List.range_eq_nil]
  omega

theorem crossMerged_eq_singlePass {hd : ℕ} (rotary : Bool) (rot : RotFun hd)
    (remb q : Vec hd) (k v : ℕ → Vec hd) (sm_scale : ℝ) (seq_len cs : ℕ)
    (hcs : 0 < cs) (hL : 0 < seq_len) :
    crossMergedState rotary rot remb q k v sm_scale seq_len cs =
      singlePassState rotary rot remb q k v sm_scale seq_len := by
  unfold crossMergedState singlePassState
  have hmap : (List.range (numChunks seq_len cs)).map
      (chunkStateAt rotary rot remb q k v sm_scale seq_len cs) =
      ((List.range (numChunks seq_len cs)).map (fun c =>
        chunkElems rotary rot remb q k v sm_scale seq_len (c * cs)
          (chunkLen seq_len cs c))).map stateOf := by
    rw [List.map_map]
    rfl
  have hNpos := numChunks_pos hcs hL
  rw [hmap, mergeStates_flatten _
    (by
      simp only [ne_eq, List.map_eq_nil_iff, List.range_eq_nil]
      omega)
    (by
      intro c hc
      obtain ⟨cc, hcc, rfl⟩ := List.mem_map.mp hc
      exact chunkElems_ne_nil _ _ _ _ _ _ _ _ _ _
        (chunkLen_pos hcs hL (List.mem_range.mp hcc)))]
  simp only [chunkElems_def]
  rw [chunks_cover_range cs hcs (numChunks seq_len cs)
    (fun p => (kernelScore rotary rot remb q k sm_scale seq_len p, v p))
    seq_len rfl]
  exact congrArg stateOf
    ((List.map_congr_left fun j _ => by rw [Nat.zero_add]).symm)

theorem absOf_O_eq {hd : ℕ} (l : List (Elem hd)) (h : l ≠ []) (i : Fin hd) :
    (absOf l).O i = (l.map (fun e => Real.exp e.1 * e.2 i)).sum := by
  match l, h with
  | p :: t, _ => rfl

theorem absOf_D_eq {hd : ℕ} (l : List (Elem hd)) (h : l ≠ []) :
    (absOf l).D = (l.map (fun e => Real.exp e.1)).sum := by
  match l, h with
  | p :: t, _ => rfl

/-- C4: only the chunk-zero group takes the final merge branch; the
per-chunk partial outputs written to the scratch buffer are the raw
`exp(score - m)`-weighted sums, never pre-divided by `d` (the matching `d`
is exactly the sum of the weights); and the final output tensor value is
the merged `o` divided by the merged `d`, a single division at the final
step, equal to the softmax-weighted average over the whole sequence. -/
theorem cross_group_reduction_spec {hd : ℕ} (rotary : Bool) (rot : RotFun hd)
    (remb q : Vec hd) (k v : ℕ → Vec hd) (sm_scale : ℝ) (seq_len cs : ℕ)
    (hcs : 0 < cs) (hL : 0 < seq_len) :
    (∀ c, writesFinalOutput c = true ↔ c = 0) ∧
    (∀ c < numChunks seq_len cs,
      (chunkStateAt rotary rot remb q k v sm_scale seq_len cs c).d =
        ((chunkElems rotary rot remb q k v sm_scale seq_len (c * cs)
          (chunkLen seq_len cs c)).map (fun e =>
            Real.exp (e.1 - (chunkStateAt rotary rot remb q k v sm_scale
              seq_len cs c).m))).sum ∧
      ∀ i, (chunkStateAt rotary rot remb q k v sm_scale seq_len cs c).o i =
        ((chunkElems rotary rot remb q k v sm_scale seq_len (c * cs)
          (chunkLen seq_len cs c)).map (fun e =>
            Real.exp (e.1 - (chunkStateAt rotary rot remb q k v sm_scale
              seq_len cs c).m) * e.2 i)).sum) ∧
    (∀ i, finalOutput rotary rot remb q k v sm_scale seq_len cs i =
      ((List.range seq_len).map (fun p =>
        Real.exp (kernelScore rotary rot remb q k sm_scale seq_len p) *
          v p i)).sum /
      ((List.range seq_len).map (fun p =>
        Real.exp (kernelScore rotary rot remb q k sm_scale seq_len p))).sum) := by
  refine ⟨fun c => by simp [writesFinalOutput], ?_, ?_⟩
  · intro c hc
    have hne := chunkElems_ne_nil rotary rot remb q k v sm_scale seq_len
      (c * cs) (chunkLen seq_len cs c) (chunkLen_pos hcs hL hc)
    obtain ⟨hm, hdsum, hosum⟩ := stateOf_components _ hne
    have hms : (chunkStateAt rotary rot remb q k v sm_scale seq_len cs c).m =
        maxScore (chunkElems rotary rot remb q k v sm_scale seq_len (c * cs)
          (chunkLen seq_len cs c)) := hm
    constructor
    · rw [show (chunkStateAt rotary rot remb q k v sm_scale seq_len cs c).d =
        (stateOf (chunkElems rotary rot remb q k v sm_scale seq_len (c * cs)
          (chunkLen seq_len cs c))).d from rfl, hdsum, hms]
    · intro i
      rw [show (chunkStateAt rotary rot remb q k v sm_scale seq_len cs c).o i =
        (stateOf (chunkElems rotary rot remb q k v sm_scale seq_len (c * cs)
          (chunkLen seq_len cs c))).o i from rfl, hosum i, hms]
  · intro i
    have hkey := crossMerged_eq_singlePass rotary rot remb q k v sm_scale
      seq_len cs hcs hL
    have hne : chunkElems rotary rot remb q k v sm_scale seq_len 0 seq_len ≠
        [] := chunkElems_ne_nil _ _ _ _ _ _ _ _ _ _ hL
    unfold finalOutput
    rw [hkey]
    unfold singlePassState
    rw [stateOf_normalized _ hne i, absOf_O_eq _ hne i, absOf_D_eq _ hne]
    unfold chunkElems
    rw [List.map_map, List.map_map]
    congr 1
    · exact congrArg List.sum (List.map_congr_left fun j _ => by
        simp only [Function.comp]
        rw [Nat.zero_add])
    · exact congrArg List.sum (List.map_congr_left fun j _ => by
        simp only [Function.comp]
        rw [Nat.zero_add])

theorem cross_group_reduction_spec_witness :
    (0 : ℕ) < 1 ∧ (writesFinalOutput 0 = true ↔ 0 = 0) :=
  ⟨by decide,
    (cross_group_reduction_spec false ((fun a _ _ => a) : RotFun 1)
      ((fun _ => (0 : ℝ)) : Vec 1) ((fun _ => (0 : ℝ)) : Vec 1)
      ((fun _ _ => (1 : ℝ)) : ℕ → Vec 1) ((fun _ _ => (1 : ℝ)) : ℕ → Vec 1)
      1 1 1 (by decide) (by decide)).1 0⟩

/-- C9: in the element stream the chunked kernels feed the pipeline, each
key position's score uses the key rotated at its own absolute cache
position and the query rotated exactly once at absolute position
`seq_len - 1` (rotary enabled); with rotary disabled the raw query and key
values are used unrotated. -/
theorem rotary_positions_spec {hd : ℕ} (rot : RotFun hd) (remb q : Vec hd)
    (k v : ℕ → Vec hd) (sm_scale : ℝ) (seq_len cs : ℕ) (hcs : 0 < cs) :
    ((List.range (numChunks seq_len cs)).map (fun c =>
      chunkElems true rot remb q k v sm_scale seq_len (c * cs)
        (chunkLen seq_len cs c))).flatten =
      (List.range seq_len).map (fun p =>
        (dotScore (rot q remb (seq_len - 1)) (rot (k p) remb p) sm_scale,
          v p)) ∧
    ((List.range (numChunks seq_len cs)).map (fun c =>
      chunkElems false rot remb q k v sm_scale seq_len (c * cs)
        (chunkLen seq_len cs c))).flatten =
      (List.range seq_len).map (fun p => (dotScore q (k p) sm_scale, v p)) := by
  constructor
  · simp only [chunkElems_def]
    rw [chunks_cover_range cs hcs (numChunks seq_len cs)
      (fun p => (kernelScore true rot remb q k sm_scale seq_len p, v p))
      seq_len rfl]
    rfl
  · simp only [chunkElems_def]
    rw [chunks_cover_range cs hcs (numChunks seq_len cs)
      (fun p => (kernelScore false rot remb q k sm_scale seq_len p, v p))
      seq_len rfl]
    rfl

theorem rotary_positions_spec_witness :
    (0 : ℕ) < 1 ∧
    ((List.range (numChunks 2 1)).map (fun c =>
      chunkElems false ((fun a _ _ => a) : RotFun 1)
        ((fun _ => (0 : ℝ)) : Vec 1) ((fun _ => (0 : ℝ)) : Vec 1)
        ((fun _ _ => (1 : ℝ)) : ℕ → Vec 1) ((fun _ _ => (1 : ℝ)) : ℕ → Vec 1)
        1 2 (c * 1) (chunkLen 2 1 c))).flatten =
      (List.range 2).map (fun p =>
        (dotScore ((fun _ => (0 : ℝ)) : Vec 1)
          (((fun _ _ => (1 : ℝ)) : ℕ → Vec 1) p) 1,
          ((fun _ _ => (1 : ℝ)) : ℕ → Vec 1) p)) :=
  ⟨by decide,
    (rotary_positions_spec ((fun a _ _ => a) : RotFun 1)
      ((fun _ => (0 : ℝ)) : Vec 1) ((fun _ => (0 : ℝ)) : Vec 1)
      ((fun _ _ => (1 : ℝ)) : ℕ → Vec 1) ((fun _ _ => (1 : ℝ)) : ℕ → Vec 1)
      1 2 1 (by decide)).2⟩

theorem qkReduceLoop_spec (n : ℕ) :
    ∀ (j : ℕ) (xs : ℕ → ℝ) (t : ℕ), t + 2 ^ j ≤ n →
      qkReduceLoop n j xs t = ∑ r ∈ Finset.range (2 ^ j), xs (t + r) := by
  intro j
  induction j with
  | zero =>
    intro xs t _
    simp [qkReduceLoop]
  | succ j ih =>
    intro xs t ht
    have h2 : 2 ^ (j + 1) = 2 ^ j + 2 ^ j := by
      rw [pow_succ]
      omega
    have hp : 0 < 2 ^ j := pow_pos (show (0 : ℕ) < 2 by omega) j
    show qkReduceLoop n j (shfl_down_add n xs (2 ^ j)) t = _
    rw [ih (shfl_down_add n xs (2 ^ j)) t (by omega)]
    have hsum : ∀ r ∈ Finset.range (2 ^ j),
        shfl_down_add n xs (2 ^ j) (t + r) =
          xs (t + r) + xs (t + r + 2 ^ j) := by
      intro r hr
      have hrlt : r < 2 ^ j := Finset.mem_range.mp hr
      unfold shfl_down_add
      rw [if_pos (by omega)]
    rw [Finset.sum_congr rfl hsum, Finset.sum_add_distrib, h2,
      Finset.sum_range_add]
    congr 1
    apply Finset.sum_congr rfl
    intro r _
    congr 1
    omega

theorem sum_blocks (b v : ℕ) (f : ℕ → ℝ) :
    ∑ t ∈ Finset.range b, ∑ i ∈ Finset.range v, f (t * v + i) =
      ∑ i ∈ Finset.range (b * v), f i := by
  induction b with
  | zero => simp
  | succ b ih =>
    rw [Finset.sum_range_succ, ih, Nat.succ_mul, Finset.sum_range_add]

/-- C5: for every key position, `compute_qk` sums `q[i] * k[i] * sm_scale`
over each lane's feature slice, tree-reduces across the `bdx = 2^k_pow`
lanes with offsets `bdx/2, bdx/4, ..., 1`, and broadcasts lane 0's value,
so after the broadcast every lane of the subgroup holds the same scalar:
the full dot product of the (possibly rotated) query and key scaled by
`sm_scale = 1/sqrt(head_dim)`. -/
theorem compute_qk_reduction_spec (k_pow vec_size head_dim : ℕ)
    (q kv : ℕ → ℝ) (hhd : head_dim = 2 ^ k_pow * vec_size) (t1 t2 : ℕ) :
    compute_qk_lanes k_pow vec_size q kv (sm_scale_of head_dim) t1 =
      compute_qk_lanes k_pow vec_size q kv (sm_scale_of head_dim) t2 ∧
    compute_qk_lanes k_pow vec_size q kv (sm_scale_of head_dim) t1 =
      (∑ i ∈ Finset.range head_dim, q i * kv i) *
        (1 / Real.sqrt (head_dim : ℝ)) := by
  refine ⟨rfl, ?_⟩
  show qkReduceLoop (2 ^ k_pow) k_pow
    (laneSum vec_size q kv (sm_scale_of head_dim)) 0 = _
  rw [qkReduceLoop_spec (2 ^ k_pow) k_pow _ 0 (by omega)]
  have hlane : ∀ r ∈ Finset.range (2 ^ k_pow),
      laneSum vec_size q kv (sm_scale_of head_dim) (0 + r) =
        ∑ i ∈ Finset.range vec_size,
          (fun x => q x * kv x * sm_scale_of head_dim) (r * vec_size + i) := by
    intro r _
    rw [Nat.zero_add]
    rfl
  rw [Finset.sum_congr rfl hlane, sum_blocks (2 ^ k_pow) vec_size
    (fun x => q x * kv x * sm_scale_of head_dim), ← hhd]
  rw [show (∑ i ∈ Finset.range head_dim,
      q i * kv i * sm_scale_of head_dim) =
    (∑ i ∈ Finset.range head_dim, q i * kv i) * sm_scale_of head_dim from
    (Finset.sum_mul _ _ _).symm]
  rfl

theorem compute_qk_reduction_spec_witness :
    (4 : ℕ) = 2 ^ 1 * 2 ∧
    compute_qk_lanes 1 2 (fun p => (p : ℝ)) (fun p => (p : ℝ))
        (sm_scale_of 4) 0 =
      (∑ i ∈ Finset.range 4, (i : ℝ) * (i : ℝ)) * (1 / Real.sqrt (4 : ℝ)) :=
  ⟨by decide,
    (compute_qk_reduction_spec 1 2 4 (fun p => (p : ℝ)) (fun p => (p : ℝ))
      (by decide) 0 1).2⟩

theorem mul_add_inj {B a b i j : ℕ} (hi : i < B) (hj : j < B)
    (h : a * B + i = b * B + j) : a = b ∧ i = j := by
  have hB : 0 < B := by omega
  have ha : (a * B + i) / B = a := by
    rw [Nat.add_comm, Nat.add_mul_div_right _ _ hB, Nat.div_eq_of_lt hi,
      Nat.zero_add]
  have hb : (b * B + j) / B = b := by
    rw [Nat.add_comm, Nat.add_mul_div_right _ _ hB, Nat.div_eq_of_lt hj,
      Nat.zero_add]
  have hab : a = b := by rw [← ha, ← hb, h]
  subst hab
  exact ⟨rfl, by omega⟩

theorem mul_add_lt {A B a b : ℕ} (ha : a < A) (hb : b < B) :
    a * B + b < A * B := by
  have h1 : a * B + b < (a + 1) * B := by
    rw [Nat.succ_mul]
    omega
  have h2 : (a + 1) * B ≤ A * B := Nat.mul_le_mul_right B ha
  omega

theorem decomp_pair {A B a : ℕ} (hB : 0 < B) (ha : a < A * B) :
    a / B < A ∧ a % B < B ∧ a / B * B + a % B = a := by
  refine ⟨(Nat.div_lt_iff_lt_mul hB).mpr ha, Nat.mod_lt _ hB, ?_⟩
  have h := Nat.div_add_mod a B
  rw [Nat.mul_comm]
  omega

theorem writtenHND_of_lt {H C hdim : ℕ} (hC : 0 < C) (hhd : 0 < hdim)
    (n : ℕ) (hn : n < tmpSize H C hdim) : writtenHND H C hdim n := by
  unfold tmpSize at hn
  by_cases hlt : n < H * C * hdim
  · obtain ⟨ha1, ha2, ha3⟩ := decomp_pair hhd hlt
    obtain ⟨hb1, hb2, hb3⟩ := decomp_pair hC ha1
    refine ⟨n / hdim / C, hb1, n / hdim % C, hb2,
      Or.inl ⟨n % hdim, ha2, ?_⟩⟩
    unfold HND.tmpOIndex
    rw [hb3]
    omega
  · have hbridge : 2 * H * C = H * C * 2 := by ring
    have hm : n - H * C * hdim < H * C * 2 := by omega
    obtain ⟨ha1, ha2, ha3⟩ := decomp_pair (show 0 < 2 by omega) hm
    obtain ⟨hb1, hb2, hb3⟩ := decomp_pair hC ha1
    refine ⟨(n - H * C * hdim) / 2 / C, hb1, (n - H * C * hdim) / 2 % C, hb2,
      Or.inr ⟨(n - H * C * hdim) % 2, ha2, ?_⟩⟩
    unfold HND.tmpMDIndex
    rw [hb3]
    omega

theorem writtenNHD_of_lt {H C hdim : ℕ} (hH : 0 < H) (hhd : 0 < hdim)
    (n : ℕ) (hn : n < tmpSize H C hdim) : writtenNHD H C hdim n := by
  unfold tmpSize at hn
  have hbr1 : H * C * hdim = C * H * hdim := by ring
  by_cases hlt : n < C * H * hdim
  · obtain ⟨ha1, ha2, ha3⟩ := decomp_pair hhd hlt
    obtain ⟨hb1, hb2, hb3⟩ := decomp_pair hH ha1
    refine ⟨n / hdim % H, hb2, n / hdim / H, hb1,
      Or.inl ⟨n % hdim, ha2, ?_⟩⟩
    unfold NHD.tmpOIndex
    rw [hb3]
    omega
  · have hbridge : 2 * H * C = C * H * 2 := by ring
    have hm : n - C * H * hdim < C * H * 2 := by omega
    obtain ⟨ha1, ha2, ha3⟩ := decomp_pair (show 0 < 2 by omega) hm
    obtain ⟨hb1, hb2, hb3⟩ := decomp_pair hH ha1
    refine ⟨(n - C * H * hdim) / 2 % H, hb2, (n - C * H * hdim) / 2 / H, hb1,
      Or.inr ⟨(n - C * H * hdim) % 2, ha2, ?_⟩⟩
    unfold NHD.tmpMDIndex
    rw [hb3]
    omega

/-- C6: in the `heads x chunks x head_dim + 2 x heads x chunks` scratch
buffer, distinct (head, chunk) pairs own disjoint partial-output and (m, d)
index regions in both layouts (the maps are injective, the output block
sits strictly below the (m, d) block), every index the cross-group
reduction reads was written by some group before the barrier, and every
buffer element is written, so caller zero-initialization is not required. -/
theorem tmp_buffer_disjoint_and_covered (H C hdim bdy bdz : ℕ)
    (hH : 0 < H) (hC : 0 < C) (hhd : 0 < hdim) :
    (∀ h1 c1 i1 h2 c2 i2, h1 < H → c1 < C → i1 < hdim → h2 < H → c2 < C →
      i2 < hdim →
      HND.tmpOIndex C hdim h1 c1 i1 = HND.tmpOIndex C hdim h2 c2 i2 →
      h1 = h2 ∧ c1 = c2 ∧ i1 = i2) ∧
    (∀ h1 c1 j1 h2 c2 j2, h1 < H → c1 < C → j1 < 2 → h2 < H → c2 < C →
      j2 < 2 →
      HND.tmpMDIndex H C hdim h1 c1 j1 = HND.tmpMDIndex H C hdim h2 c2 j2 →
      h1 = h2 ∧ c1 = c2 ∧ j1 = j2) ∧
    (∀ h c i j, h < H → c < C → i < hdim → j < 2 →
      HND.tmpOIndex C hdim h c i < H * C * hdim ∧
      H * C * hdim ≤ HND.tmpMDIndex H C hdim h c j ∧
      HND.tmpMDIndex H C hdim h c j < tmpSize H C hdim) ∧
    (∀ n, readHND H C hdim bdy n → writtenHND H C hdim n) ∧
    (∀ n < tmpSize H C hdim, writtenHND H C hdim n) ∧
    (∀ h1 c1 i1 h2 c2 i2, h1 < H → c1 < C → i1 < hdim → h2 < H → c2 < C →
      i2 < hdim →
      NHD.tmpOIndex H hdim h1 c1 i1 = NHD.tmpOIndex H hdim h2 c2 i2 →
      h1 = h2 ∧ c1 = c2 ∧ i1 = i2) ∧
    (∀ h1 c1 j1 h2 c2 j2, h1 < H → c1 < C → j1 < 2 → h2 < H → c2 < C →
      j2 < 2 →
      NHD.tmpMDIndex H C hdim h1 c1 j1 = NHD.tmpMDIndex H C hdim h2 c2 j2 →
      h1 = h2 ∧ c1 = c2 ∧ j1 = j2) ∧
    (∀ h c i j, h < H → c < C → i < hdim → j < 2 →
      NHD.tmpOIndex H hdim h c i < H * C * hdim ∧
      H * C * hdim ≤ NHD.tmpMDIndex H C hdim h c j ∧
      NHD.tmpMDIndex H C hdim h c j < tmpSize H C hdim) ∧
    (∀ n, readNHD H C hdim bdz n → writtenNHD H C hdim n) ∧
    (∀ n < tmpSize H C hdim, writtenNHD H C hdim n) := by
  refine ⟨?_, ?_, ?_, ?_, fun n hn => writtenHND_of_lt hC hhd n hn,
    ?_, ?_, ?_, ?_, fun n hn => writtenNHD_of_lt hH hhd n hn⟩
  · intro h1 c1 i1 h2 c2 i2 hh1 hc1 hi1 hh2 hc2 hi2 heq
    unfold HND.tmpOIndex at heq
    obtain ⟨hpair, hi⟩ := mul_add_inj hi1 hi2 heq
    obtain ⟨hh, hc⟩ := mul_add_inj hc1 hc2 hpair
    exact ⟨hh, hc, hi⟩
  · intro h1 c1 j1 h2 c2 j2 hh1 hc1 hj1 hh2 hc2 hj2 heq
    unfold HND.tmpMDIndex at heq
    have heq2 : (h1 * C + c1) * 2 + j1 = (h2 * C + c2) * 2 + j2 := by omega
    obtain ⟨hpair, hj⟩ := mul_add_inj hj1 hj2 heq2
    obtain ⟨hh, hc⟩ := mul_add_inj hc1 hc2 hpair
    exact ⟨hh, hc, hj⟩
  · intro h c i j hh hc hi hj
    have h1 : HND.tmpOIndex C hdim h c i < H * C * hdim :=
      mul_add_lt (mul_add_lt hh hc) hi
    have h2 : (h * C + c) * 2 + j < H * C * 2 :=
      mul_add_lt (mul_add_lt hh hc) hj
    have hbridge : 2 * H * C = H * C * 2 := by ring
    refine ⟨h1, ?_, ?_⟩
    · unfold HND.tmpMDIndex
      omega
    · unfold HND.tmpMDIndex tmpSize
      omega
  · rintro n ⟨h, hh, b, _, ty, _, hcC, hor⟩
    exact ⟨h, hh, b * bdy + ty, hcC, hor⟩
  · intro h1 c1 i1 h2 c2 i2 hh1 hc1 hi1 hh2 hc2 hi2 heq
    unfold NHD.tmpOIndex at heq
    obtain ⟨hpair, hi⟩ := mul_add_inj hi1 hi2 heq
    obtain ⟨hc, hh⟩ := mul_add_inj hh1 hh2 hpair
    exact ⟨hh, hc, hi⟩
  · intro h1 c1 j1 h2 c2 j2 hh1 hc1 hj1 hh2 hc2 hj2 heq
    unfold NHD.tmpMDIndex at heq
    have heq2 : (c1 * H + h1) * 2 + j1 = (c2 * H + h2) * 2 + j2 := by omega
    obtain ⟨hpair, hj⟩ := mul_add_inj hj1 hj2 heq2
    obtain ⟨hc, hh⟩ := mul_add_inj hh1 hh2 hpair
    exact ⟨hh, hc, hj⟩
  · intro h c i j hh hc hi hj
    have hbr1 : H * C * hdim = C * H * hdim := by ring
    have h1 : NHD.tmpOIndex H hdim h c i < C * H * hdim :=
      mul_add_lt (mul_add_lt hc hh) hi
    have h2 : (c * H + h) * 2 + j < C * H * 2 :=
      mul_add_lt (mul_add_lt hc hh) hj
    have hbridge : 2 * H * C = C * H * 2 := by ring
    refine ⟨by omega, ?_, ?_⟩
    · unfold NHD.tmpMDIndex
      omega
    · unfold NHD.tmpMDIndex tmpSize
      omega
  · rintro n ⟨h, hh, b, _, tz, _, hcC, hor⟩
    exact ⟨h, hh, b * bdz + tz, hcC, hor⟩

theorem tmp_buffer_disjoint_and_covered_witness :
    (0 : ℕ) < 1 ∧ (0 : ℕ) < 2 ∧ (0 : ℕ) < 3 ∧ writtenHND 1 2 3 5 :=
  ⟨by decide, by decide, by decide,
    (tmp_buffer_disjoint_and_covered 1 2 3 1 1 (by decide) (by decide)
      (by decide)).2.2.2.2.1 5 (by decide)⟩

theorem ceil_div_le_iff {L c m : ℕ} (hc : 0 < c) :
    (L + c - 1) / c ≤ m ↔ L ≤ m * c := by
  rw [Nat.div_le_iff_le_mul_add_pred hc]
  have hbr : c * m = m * c := Nat.mul_comm c m
  omega

theorem generic_chunk_spec (M L lo hi x : ℕ) (hM : 0 < M) (_hL : 0 < L)
    (hlo : 0 < lo) (hlohi : lo ≤ hi) :
    lo ≤ max ((L + M - 1) / M) (min hi (max lo x)) ∧
    ((L + M - 1) / M ≤ hi →
      max ((L + M - 1) / M) (min hi (max lo x)) ≤ hi) ∧
    (L + max ((L + M - 1) / M) (min hi (max lo x)) - 1) /
      max ((L + M - 1) / M) (min hi (max lo x)) ≤ M := by
  have hc1 : L ≤ (L + M - 1) / M * M := (ceil_div_le_iff hM).mp (le_refl _)
  have hcc : (L + M - 1) / M ≤ max ((L + M - 1) / M) (min hi (max lo x)) :=
    le_max_left _ _
  have hmul : (L + M - 1) / M * M ≤
      max ((L + M - 1) / M) (min hi (max lo x)) * M :=
    Nat.mul_le_mul_right M hcc
  have hbr : M * max ((L + M - 1) / M) (min hi (max lo x)) =
      max ((L + M - 1) / M) (min hi (max lo x)) * M := Nat.mul_comm _ _
  have hcspos : 0 < max ((L + M - 1) / M) (min hi (max lo x)) := by omega
  refine ⟨by omega, by omega, (ceil_div_le_iff hcspos).mpr (by omega)⟩

/-- C7 counterexample: with one resident group, four heads and `bdy = 4`
(one head-group), a sequence of length 1000 forces
`kv_chunk_size = ceil(1000/1) = 1000`, far above the NHD ceiling of 64: the
clamp `[8, 64]` applies only to the occupancy-independent heuristic term,
and the occupancy term overrides the ceiling. -/
theorem kv_chunk_size_ceiling_violated :
    max_num_kv_chunks_NHD 1 4 4 = 1 ∧
    kv_chunk_size_NHD 1 4 4 1000 = 1000 ∧
    ¬ kv_chunk_size_NHD 1 4 4 1000 ≤ 64 := by decide

/-- C7 (amended): for positive head-group count within the device capacity,
the chunk size never falls below the per-layout floor (8 NHD, 32 HND), and
never exceeds the per-layout ceiling (64 NHD, 128 HND) provided the
occupancy-forced term `ceil(seq_len / max_num_kv_chunks)` is itself within
the ceiling (otherwise that term wins the outer `max` and exceeds it); the
resulting chunk count never exceeds `max_num_kv_chunks`, so the grid fits
the device's concurrently resident group capacity, and the modelled
cooperative launch reports a precondition violation exactly when a grid
would need more resident groups than the device can host. -/
theorem launch_config_spec (max_num_blks num_heads bdy seq_len : ℕ)
    (hg : 0 < num_heads / bdy) (hgle : num_heads / bdy ≤ max_num_blks)
    (hh : 0 < num_heads) (hhle : num_heads ≤ max_num_blks)
    (hL : 0 < seq_len) :
    (8 ≤ kv_chunk_size_NHD max_num_blks num_heads bdy seq_len ∧
     ((seq_len + max_num_kv_chunks_NHD max_num_blks num_heads bdy - 1) /
        max_num_kv_chunks_NHD max_num_blks num_heads bdy ≤ 64 →
      kv_chunk_size_NHD max_num_blks num_heads bdy seq_len ≤ 64) ∧
     numChunks seq_len (kv_chunk_size_NHD max_num_blks num_heads bdy
        seq_len) ≤ max_num_kv_chunks_NHD max_num_blks num_heads bdy ∧
     numChunks seq_len (kv_chunk_size_NHD max_num_blks num_heads bdy
        seq_len) * (num_heads / bdy) ≤ max_num_blks ∧
     ¬ cooperativeLaunchFails
        (numChunks seq_len (kv_chunk_size_NHD max_num_blks num_heads bdy
          seq_len) * (num_heads / bdy)) max_num_blks) ∧
    (32 ≤ kv_chunk_size_HND max_num_blks num_heads seq_len ∧
     ((seq_len + max_num_kv_chunks_HND max_num_blks num_heads - 1) /
        max_num_kv_chunks_HND max_num_blks num_heads ≤ 128 →
      kv_chunk_size_HND max_num_blks num_heads seq_len ≤ 128) ∧
     numChunks seq_len (kv_chunk_size_HND max_num_blks num_heads seq_len) ≤
        max_num_kv_chunks_HND max_num_blks num_heads ∧
     numChunks seq_len (kv_chunk_size_HND max_num_blks num_heads seq_len) *
        num_heads ≤ max_num_blks ∧
     ¬ cooperativeLaunchFails
        (numChunks seq_len (kv_chunk_size_HND max_num_blks num_heads
          seq_len) * num_heads) max_num_blks) ∧
    (∀ total_blocks, max_num_blks < total_blocks →
      cooperativeLaunchFails total_blocks max_num_blks) := by
  have hMn : 0 < max_num_kv_chunks_NHD max_num_blks num_heads bdy :=
    Nat.div_pos hgle hg
  have hMh : 0 < max_num_kv_chunks_HND max_num_blks num_heads :=
    Nat.div_pos hhle hh
  obtain ⟨hn1, hn2, hn3⟩ := generic_chunk_spec
    (max_num_kv_chunks_NHD max_num_blks num_heads bdy) seq_len 8 64
    (seq_len / max 1 (64 * bdy / num_heads)) hMn hL (by omega) (by omega)
  obtain ⟨hh1, hh2, hh3⟩ := generic_chunk_spec
    (max_num_kv_chunks_HND max_num_blks num_heads) seq_len 32 128
    (seq_len / max 1 (128 / num_heads)) hMh hL (by omega) (by omega)
  have hdivn : max_num_kv_chunks_NHD max_num_blks num_heads bdy *
      (num_heads / bdy) ≤ max_num_blks := by
    unfold max_num_kv_chunks_NHD
    exact Nat.div_mul_le_self _ _
  have hdivh : max_num_kv_chunks_HND max_num_blks num_heads * num_heads ≤
      max_num_blks := by
    unfold max_num_kv_chunks_HND
    exact Nat.div_mul_le_self _ _
  have hn4 : numChunks seq_len (kv_chunk_size_NHD max_num_blks num_heads bdy
      seq_len) ≤ max_num_kv_chunks_NHD max_num_blks num_heads bdy := hn3
  have hh4 : numChunks seq_len (kv_chunk_size_HND max_num_blks num_heads
      seq_len) ≤ max_num_kv_chunks_HND max_num_blks num_heads := hh3
  have hcn : numChunks seq_len (kv_chunk_size_NHD max_num_blks num_heads bdy
      seq_len) * (num_heads / bdy) ≤ max_num_blks := by
    have := Nat.mul_le_mul_right (num_heads / bdy) hn4
    omega
  have hch : numChunks seq_len (kv_chunk_size_HND max_num_blks num_heads
      seq_len) * num_heads ≤ max_num_blks := by
    have := Nat.mul_le_mul_right num_heads hh4
    omega
  refine ⟨⟨hn1, hn2, hn3, hcn, ?_⟩, ⟨hh1, hh2, hh3, hch, ?_⟩,
    fun tb htb => htb⟩
  · unfold cooperativeLaunchFails
    omega
  · unfold cooperativeLaunchFails
    omega

theorem launch_config_spec_witness :
    (0 : ℕ) < 4 / 4 ∧ 8 ≤ kv_chunk_size_NHD 8 4 4 100 :=
  ⟨by decide,
    (launch_config_spec 8 4 4 100 (by decide) (by decide) (by decide)
      (by decide) (by decide)).1.1⟩

/-- C10 counterexample: with one head and `bdy = 4` (the NHD configuration
for `head_dim = 64` and 2-byte input elements), `num_heads / bdy = 0`, so
the claim's hypothesis `num_blocks_per_sm * num_sm >= num_heads / bdy`
holds vacuously while `max_num_kv_chunks = max_num_blks / 0` is not
strictly positive (and in C++ is a division by zero). -/
theorem chunk_divisor_not_pos :
    (1 : ℕ) / 4 ≤ 5 ∧ ¬ 0 < max_num_kv_chunks_NHD 5 1 4 := by decide

/-- C10 (amended): when additionally the head-group count `num_heads / bdy`
(NHD), respectively `num_heads` (HND), is itself positive and at most the
device's resident-block capacity, the divisor `max_num_kv_chunks` is
strictly positive, so the chunk-size ceiling division is well-defined. -/
theorem chunk_divisor_pos (max_num_blks num_heads bdy : ℕ)
    (h1 : 0 < num_heads / bdy) (h2 : num_heads / bdy ≤ max_num_blks)
    (h3 : 0 < num_heads) (h4 : num_heads ≤ max_num_blks) :
    0 < max_num_kv_chunks_NHD max_num_blks num_heads bdy ∧
    0 < max_num_kv_chunks_HND max_num_blks num_heads :=
  ⟨Nat.div_pos h2 h1, Nat.div_pos h4 h3⟩

theorem chunk_divisor_pos_witness :
    (0 : ℕ) < 4 / 4 ∧ 0 < max_num_kv_chunks_NHD 8 4 4 :=
  ⟨by decide,
    (chunk_divisor_pos 8 4 4 (by decide) (by decide) (by decide)
      (by decide)).1⟩

/-- C8: any unsupported `qkv_layout`, `head_dim` or `rotary_mode` aborts the
process before any launch; with a supported configuration, a failing device
query (multiprocessor count or occupancy) returns its error code to the
caller with no kernel executed (neither outcome is a launch). -/
theorem dispatch_spec (sz layout rm hdim nh L : ℕ) (smQ occQ : Except ℕ ℕ) :
    ((validLayout layout = false ∨ validHeadDim hdim = false ∨
        validRotaryMode rm = false) →
      SingleDecodeWithKVCache sz layout rm hdim nh L smQ occQ =
        Outcome.fatalAbort) ∧
    (∀ e, validLayout layout = true → validHeadDim hdim = true →
      validRotaryMode rm = true → smQ = Except.error e →
      SingleDecodeWithKVCache sz layout rm hdim nh L smQ occQ =
        Outcome.returnedError e) ∧
    (∀ e nsm, validLayout layout = true → validHeadDim hdim = true →
      validRotaryMode rm = true → smQ = Except.ok nsm →
      occQ = Except.error e →
      SingleDecodeWithKVCache sz layout rm hdim nh L smQ occQ =
        Outcome.returnedError e) ∧
    (∀ e x y z, Outcome.fatalAbort ≠ Outcome.launched x y z ∧
      Outcome.returnedError e ≠ Outcome.launched x y z) := by
  refine ⟨?_, ?_, ?_, fun e x y z => ⟨by simp, by simp⟩⟩
  · intro hbad
    unfold SingleDecodeWithKVCache
    by_cases h0 : (layout == 0) = true
    · rw [if_pos h0]
      have hlv : validLayout layout = true := by
        unfold validLayout
        rw [h0, Bool.true_or]
      rcases hbad with hb | hb | hb
      · rw [hlv] at hb
        cases hb
      · rw [if_neg (by rw [hb]; exact Bool.false_ne_true)]
      · by_cases hv : validHeadDim hdim = true
        · rw [if_pos hv, if_neg (by rw [hb]; exact Bool.false_ne_true)]
        · rw [if_neg hv]
    · rw [if_neg h0]
      by_cases h1 : (layout == 1) = true
      · rw [if_pos h1]
        have hlv : validLayout layout = true := by
          unfold validLayout
          rw [h1, Bool.or_true]
        rcases hbad with hb | hb | hb
        · rw [hlv] at hb
          cases hb
        · rw [if_neg (by rw [hb]; exact Bool.false_ne_true)]
        · by_cases hv : validHeadDim hdim = true
          · rw [if_pos hv, if_neg (by rw [hb]; exact Bool.false_ne_true)]
          · rw [if_neg hv]
      · rw [if_neg h1]
  · intro e hlv hvh hvr hsm
    subst hsm
    unfold SingleDecodeWithKVCache
    unfold validLayout at hlv
    rcases Bool.or_eq_true_iff.mp hlv with h0 | h1
    · rw [if_pos h0, if_pos hvh, if_pos hvr]
    · by_cases h0 : (layout == 0) = true
      · rw [if_pos h0, if_pos hvh, if_pos hvr]
      · rw [if_neg h0, if_pos h1, if_pos hvh, if_pos hvr]
  · intro e nsm hlv hvh hvr hsm hocc
    subst hsm
    subst hocc
    unfold SingleDecodeWithKVCache
    unfold validLayout at hlv
    rcases Bool.or_eq_true_iff.mp hlv with h0 | h1
    · rw [if_pos h0, if_pos hvh, if_pos hvr]
    · by_cases h0 : (layout == 0) = true
      · rw [if_pos h0, if_pos hvh, if_pos hvr]
      · rw [if_neg h0, if_pos h1, if_pos hvh, if_pos hvr]

theorem dispatch_spec_witness :
    validHeadDim 100 = false ∧
    SingleDecodeWithKVCache 2 0 0 100 4 128 (Except.ok 1) (Except.ok 1) =
      Outcome.fatalAbort :=
  ⟨by decide,
    (dispatch_spec 2 0 0 100 4 128 (Except.ok 1) (Except.ok 1)).1
      (Or.inr (Or.inl (by decide)))⟩

end Flashinfer
